import Mathlib

/-!
Verification of a grid-navigation simulation: a single agent on a static 2-D
grid of tiles, steered one tick at a time by an incremental frontier search
(an A*-style engine that performs one expansion per invocation).

The development shallowly embeds the program:
- `Tile`, `Direction`, `IVec2`, `Map` model the grid layer (`map.rs`, `action.rs`);
- `AStar` and its operations model the incremental search (`set02.rs`);
- `SimulationEnvironment` models the stepwise simulation loop (`set02.rs`).

Rust `HashMap`s are modelled as association lists where insertion conses a new
binding (shadowing the old one), and the `BinaryHeap` frontier is modelled as a
list with a deterministic pop-minimum (earliest-inserted entry among ties; the
program's own tie-break is unspecified, and every concrete trace used below is
tie-free, so the choice is immaterial). Operations that can panic in Rust
(indexing a `Vec` or a `HashMap` out of range) return `Option`, with `none`
standing for the panic.
-/

/-- 2-D integer vector, modelling `glam::IVec2`. -/
structure IVec2 where
  x : Int
  y : Int
deriving DecidableEq, Repr

instance : Add IVec2 := ⟨fun a b => ⟨a.x + b.x, a.y + b.y⟩⟩

/-- Tile classification, from `map.rs`. -/
inductive Tile where
  | CLEAN
  | DIRTY
  | IMPASSABLE
  | TARGET
deriving DecidableEq, Repr

/-- Movement direction, from `action.rs`. -/
inductive Direction where
  | Up
  | Down
  | Left
  | Right
deriving DecidableEq, Repr

/-- `Direction::all()` from `action.rs`. -/
def Direction.all : List Direction := [.Up, .Down, .Left, .Right]

/-- `Direction::to_ivec2()` from `action.rs`. -/
def Direction.to_ivec2 : Direction → IVec2
  | .Up => ⟨0, -1⟩
  | .Down => ⟨0, 1⟩
  | .Left => ⟨-1, 0⟩
  | .Right => ⟨1, 0⟩

/-- The grid, from `map.rs`: a row-major list of rows of tiles. -/
structure Map where
  tiles : List (List Tile)
  width : Nat
  height : Nat
deriving DecidableEq, Repr

namespace Map

/-- Well-formedness of the dimensions, implicit in the Rust constructors:
every row has length `width` and there are `height` rows. -/
def WF (m : Map) : Prop :=
  m.tiles.length = m.height ∧ ∀ row ∈ m.tiles, row.length = m.width

instance (m : Map) : Decidable m.WF := by
  unfold WF; infer_instance

/-- `Map::in_bounds` from `map.rs`. -/
def in_bounds (m : Map) (pos : IVec2) : Bool :=
  0 ≤ pos.x && pos.x < (m.width : Int) && 0 ≤ pos.y && pos.y < (m.height : Int)

/-- `Map::get_tile` from `map.rs`. The Rust code indexes
`self.tiles[pos.y as usize][pos.x as usize]` without a bounds check; an
out-of-range index (including the huge `usize` produced by casting a negative
coordinate) panics, modelled here as `none`. -/
def get_tile (m : Map) (pos : IVec2) : Option Tile :=
  if pos.y < 0 || pos.x < 0 then none
  else (m.tiles.get? pos.y.toNat).bind (fun row => row.get? pos.x.toNat)

/-- `Map::set_tile` from `map.rs`: same unchecked indexing as `get_tile`,
with the panic modelled as `none`. -/
def set_tile (m : Map) (pos : IVec2) (tile : Tile) : Option Map :=
  if pos.y < 0 || pos.x < 0 then none
  else
    match m.tiles.get? pos.y.toNat with
    | none => none
    | some row =>
      if pos.x.toNat < row.length then
        some { m with tiles := m.tiles.set pos.y.toNat (row.set pos.x.toNat tile) }
      else none

/-- `Map::get_neighbors` from `map.rs`: for each of the four directions, if
`pos + direction` is in bounds, the entry (neighbor position, direction, tile
at the neighbor) is produced. No passability filtering happens here. -/
def get_neighbors (m : Map) (pos : IVec2) : List (IVec2 × Direction × Tile) :=
  Direction.all.filterMap (fun direction =>
    let neighbor_pos := pos + direction.to_ivec2
    if m.in_bounds neighbor_pos then
      (m.get_tile neighbor_pos).map (fun t => (neighbor_pos, direction, t))
    else none)

end Map

/-- Association-list lookup, modelling `HashMap` lookup: the most recently
inserted binding for a key wins. -/
def lookupA {β : Type} (l : List (IVec2 × β)) (k : IVec2) : Option β :=
  match l.find? (fun kv => kv.1 == k) with
  | some kv => some kv.2
  | none => none

/-- A frontier entry, from `set02.rs` (`PositionNode`); `cost` holds the
priority. -/
structure PositionNode where
  position : IVec2
  cost : Int
deriving DecidableEq, Repr

/-- Pop the minimum-priority entry of the frontier, modelling
`BinaryHeap::pop` on `PositionNode`s ordered by reversed cost. Among equal
priorities the earliest-pushed entry is taken (the Rust heap's tie-break is
unspecified; every concrete trace below is tie-free). -/
def popMin : List PositionNode → Option (PositionNode × List PositionNode)
  | [] => none
  | a :: rest =>
    match popMin rest with
    | none => some (a, [])
    | some (m, rest') =>
      if a.cost ≤ m.cost then some (a, rest) else some (m, a :: rest')

/-- `manhattan_distance` from `set02.rs`. -/
def manhattan_distance (a b : IVec2) : Int :=
  ((b.x - a.x).natAbs : Int) + ((b.y - a.y).natAbs : Int)

/-- The incremental search state, from `set02.rs`. -/
structure AStar where
  came_from : List (IVec2 × IVec2)
  cost_so_far : List (IVec2 × Int)
  frontier : List PositionNode
deriving DecidableEq, Repr

namespace AStar

/-- `AStar::new` from `set02.rs`: cost 0 recorded for the start, the start on
the frontier with priority 0, no parents. -/
def new (start : IVec2) : AStar :=
  { came_from := []
    cost_so_far := [(start, 0)]
    frontier := [⟨start, 0⟩] }

/-- One relaxation of the loop body in `AStar::run` (`set02.rs`): if the
neighbor has no recorded cost or the new cost improves it, record the cost,
push the neighbor with priority `cost + manhattan_distance(neighbor, goal)`,
and record the parent. -/
def relax (goal : IVec2) (cost : Int) (current_pos : IVec2) (s : AStar)
    (nb : IVec2 × Direction × Tile) : AStar :=
  match lookupA s.cost_so_far nb.1 with
  | none =>
    { came_from := (nb.1, current_pos) :: s.came_from
      cost_so_far := (nb.1, cost) :: s.cost_so_far
      frontier := s.frontier ++ [⟨nb.1, cost + manhattan_distance nb.1 goal⟩] }
  | some c =>
    if cost < c then
      { came_from := (nb.1, current_pos) :: s.came_from
        cost_so_far := (nb.1, cost) :: s.cost_so_far
        frontier := s.frontier ++ [⟨nb.1, cost + manhattan_distance nb.1 goal⟩] }
    else s

/-- The expansion phase of `AStar::run` (`set02.rs`): relax every neighbor of
the popped node. -/
def expand (s : AStar) (m : Map) (goal : IVec2) (current_pos : IVec2)
    (cost : Int) : AStar :=
  (m.get_neighbors current_pos).foldl (relax goal cost current_pos) s

/-- The direction-choice phase of `AStar::run` (`set02.rs`): if the frontier
is non-empty, pop its minimum `next`; look `next.position` up in the
neighbors of `current_pos` and return the stored direction, or `None` when it
is absent (the Rust `?` on `neighbors.get`). The pop is kept either way. -/
def choose (s : AStar) (m : Map) (current_pos : IVec2) :
    Option Direction × AStar :=
  match popMin s.frontier with
  | none => (none, s)
  | some (next, rest) =>
    let s' := { s with frontier := rest }
    match (m.get_neighbors current_pos).find? (fun nb => nb.1 == next.position) with
    | none => (none, s')
    | some nb => (some nb.2.1, s')

/-- `AStar::run` from `set02.rs`. The outer `Option` models the panic of the
unchecked `self.cost_so_far[&current.position]` lookup (`none` = panic); the
inner `Option Direction` is the function's advice for this tick. -/
def run (s : AStar) (m : Map) (goal : IVec2) :
    Option (Option Direction × AStar) :=
  match popMin s.frontier with
  | none => some (none, s)
  | some (current, rest) =>
    let s₁ := { s with frontier := rest }
    if current.position = goal then some (none, s₁)
    else
      match lookupA s₁.cost_so_far current.position with
      | none => none
      | some c0 =>
        let s₂ := s₁.expand m goal current.position (c0 + 1)
        some (s₂.choose m current.position)

end AStar

/-- Lifecycle state, from `environment.rs` (`EnvironmentState`). -/
inductive EnvironmentState where
  | START
  | RUN
  | END
deriving DecidableEq, Repr

/-- The simulation environment, from `set02.rs` (`SimulationEnvironment`,
with the robot's position inlined). -/
structure SimulationEnvironment where
  map : Map
  robot_position : IVec2
  goal_position : IVec2
  astar : AStar
  state : EnvironmentState
  turn_count : Nat
deriving DecidableEq, Repr

namespace SimulationEnvironment

/-- `SimulationEnvironment::new` from `set02.rs`. -/
def new (map : Map) (robot_position goal_position : IVec2) :
    SimulationEnvironment :=
  { map
    robot_position
    goal_position
    astar := AStar.new robot_position
    state := .START
    turn_count := 0 }

/-- `Environment::run` for `SimulationEnvironment` (one tick), from
`set02.rs`: bump the turn counter, ask the search for a direction, move the
robot if one is given, then recompute the lifecycle state. `none` models a
panic propagating out of the search. -/
def run (e : SimulationEnvironment) : Option SimulationEnvironment :=
  match e.astar.run e.map e.goal_position with
  | none => none
  | some (dir?, astar') =>
    let pos :=
      match dir? with
      | some d => e.robot_position + d.to_ivec2
      | none => e.robot_position
    some { e with
      turn_count := e.turn_count + 1
      astar := astar'
      robot_position := pos
      state := if pos = e.goal_position then .END else .RUN }

/-- Iterate `run` for `n` ticks. -/
def runN (e : SimulationEnvironment) : Nat → Option SimulationEnvironment
  | 0 => some e
  | n + 1 => (e.runN n).bind run

end SimulationEnvironment

/-! ## The map-file loader (`Map::load_from_file`, `map.rs`)

The loader is modelled on the text it reads: the input is the list of lines
(file I/O aside), each a list of characters. Errors carry the same messages
as the Rust code. -/

/-- A whitespace-trimmed line, modelling `str::trim`. -/
def trimChars (l : List Char) : List Char :=
  ((l.dropWhile Char.isWhitespace).reverse.dropWhile Char.isWhitespace).reverse

/-- The character-to-tile match inside `Map::load_from_file`. -/
def charToTile : Char → Except String Tile
  | 'C' => .ok .CLEAN
  | 'W' => .ok .IMPASSABLE
  | 'T' => .ok .TARGET
  | c => .error ("Unknown tile character: " ++ toString c)

/-- Parse one line of the map file into a row of tiles, stopping at the
first unknown character (the inner loop of `Map::load_from_file`). -/
def parseRow : List Char → Except String (List Tile)
  | [] => .ok []
  | c :: rest =>
    match charToTile c with
    | .error e => .error e
    | .ok t =>
      match parseRow rest with
      | .error e => .error e
      | .ok ts => .ok (t :: ts)

/-- Parse all lines, stopping at the first bad one (the outer loop of
`Map::load_from_file`). -/
def parseRows : List (List Char) → Except String (List (List Tile))
  | [] => .ok []
  | l :: rest =>
    match parseRow l with
    | .error e => .error e
    | .ok row =>
      match parseRows rest with
      | .error e => .error e
      | .ok rows => .ok (row :: rows)

/-- `Map::load_from_file` from `map.rs`, modelled on the already-read list of
lines: trim each line, drop empty ones, reject an empty result, reject ragged
line lengths, then parse the characters. -/
def load_from_lines (input : List (List Char)) : Except String Map :=
  let lines := (input.map trimChars).filter (fun l => !l.isEmpty)
  match lines with
  | [] => .error "The file is empty or contains only whitespace."
  | first :: rest =>
    let width := first.length
    if rest.all (fun l => l.length = width) then
      match parseRows lines with
      | .error e => .error e
      | .ok tiles => .ok { tiles := tiles, width := width, height := lines.length }
    else .error "All lines must be of the same length."

/-! ## Movement paths on the grid

Step relations derived from `Map::get_neighbors`: `valid_step` is one-unit
4-directional in-bounds movement (the grid's adjacency, which does not
filter impassable tiles); `passable_step` additionally requires the target
cell not to be `IMPASSABLE` (used to state what "the goal is walled off"
means). -/

/-- One in-bounds unit step: `b` appears among the neighbors of `a`. -/
def valid_step (m : Map) (a b : IVec2) : Bool :=
  (m.get_neighbors a).any (fun nb => nb.1 == b)

/-- One in-bounds unit step onto a non-impassable cell. -/
def passable_step (m : Map) (a b : IVec2) : Bool :=
  valid_step m a b && !(m.get_tile b == some .IMPASSABLE)

/-- `path_from m step a l`: starting at `a`, the successive positions in `l`
each follow from the previous one by `step`. -/
def path_from (step : IVec2 → IVec2 → Bool) : IVec2 → List IVec2 → Bool
  | _, [] => true
  | a, b :: rest => step a b && path_from step b rest

/-- The final position of a path starting at `a` with successive positions
`l`. -/
def path_end (a : IVec2) : List IVec2 → IVec2
  | [] => a
  | b :: rest => path_end b rest

/-- The goal is fully walled off from `start`: no path of passable steps
starting at `start` ends at `goal`. -/
def walled_off (m : Map) (start goal : IVec2) : Prop :=
  ∀ l, path_from (passable_step m) start l = true → path_end start l ≠ goal

/-! ## Search-state predicates used by the theorems -/

/-- Relaxation test of `AStar::run`: the neighbor has no recorded cost, or
the new cost strictly improves it. -/
def improves (cost_so_far : List (IVec2 × Int)) (cost : Int) (p : IVec2) : Bool :=
  match lookupA cost_so_far p with
  | none => true
  | some c => decide (cost < c)

/-- The invariant tying the frontier to the cost map: every frontier entry's
position has a recorded cost, so the unchecked `cost_so_far[&current.position]`
lookup in `AStar::run` cannot panic. -/
def AStar.FrontierCosted (s : AStar) : Prop :=
  ∀ n ∈ s.frontier, (lookupA s.cost_so_far n.position).isSome = true

instance (s : AStar) : Decidable s.FrontierCosted := by
  unfold AStar.FrontierCosted; infer_instance

/-! ## Concrete scenarios -/

/-- The 3×1 grid parsed from `"CCT"`. -/
def mapCCT : Map := ⟨[[.CLEAN, .CLEAN, .TARGET]], 3, 1⟩

/-- The `"CCT"` simulation: agent at column 0, goal at column 2. -/
def envCCT : SimulationEnvironment := .new mapCCT ⟨0, 0⟩ ⟨2, 0⟩

/-- A 3×2 grid (`"CWT"` over `"CWC"`) whose goal column is separated from
the start column by a full column of impassable cells. -/
def mapWalled : Map :=
  ⟨[[.CLEAN, .IMPASSABLE, .TARGET], [.CLEAN, .IMPASSABLE, .CLEAN]], 3, 2⟩

/-- The walled simulation: agent at (0,0), goal at (2,0). -/
def envWalled : SimulationEnvironment := .new mapWalled ⟨0, 0⟩ ⟨2, 0⟩

/-- A simulation state whose lifecycle flag is `END` while the frontier still
holds an unexpanded non-goal entry. -/
def envFinishedBusy : SimulationEnvironment :=
  { map := mapCCT
    robot_position := ⟨2, 0⟩
    goal_position := ⟨2, 0⟩
    astar := ⟨[], [(⟨0, 0⟩, 0)], [⟨⟨0, 0⟩, 0⟩]⟩
    state := .END
    turn_count := 5 }

/-- A simulation state whose lifecycle flag is `END` with an exhausted
frontier. -/
def envFinishedIdle : SimulationEnvironment :=
  { map := mapCCT
    robot_position := ⟨2, 0⟩
    goal_position := ⟨2, 0⟩
    astar := ⟨[], [(⟨0, 0⟩, 0)], []⟩
    state := .END
    turn_count := 3 }

/-! ## Helper lemmas -/

theorem IVec2.ext_xy {a b : IVec2} (hx : a.x = b.x) (hy : a.y = b.y) : a = b := by
  cases a; cases b; simp_all

theorem IVec2.add_def (a b : IVec2) : a + b = ⟨a.x + b.x, a.y + b.y⟩ := rfl

theorem lookupA_cons {β : Type} (k : IVec2) (v : β) (l : List (IVec2 × β)) (q : IVec2) :
    lookupA ((k, v) :: l) q = if k = q then some v else lookupA l q := by
  by_cases h : k = q
  · subst h
    simp [lookupA, List.find?_cons_of_pos]
  · rw [if_neg h]
    unfold lookupA
    rw [List.find?_cons_of_neg]
    simp [h]

theorem lookupA_isSome_cons {β : Type} {l : List (IVec2 × β)} {q : IVec2}
    (k : IVec2) (v : β) (h : (lookupA l q).isSome = true) :
    (lookupA ((k, v) :: l) q).isSome = true := by
  rw [lookupA_cons]
  by_cases hk : k = q <;> simp [hk, h]

theorem mem_get_neighbors {m : Map} {pos p : IVec2} {d : Direction} {t : Tile} :
    (p, d, t) ∈ m.get_neighbors pos ↔
      p = pos + d.to_ivec2 ∧ m.in_bounds p = true ∧ m.get_tile p = some t := by
  unfold Map.get_neighbors
  rw [List.mem_filterMap]
  constructor
  · rintro ⟨d', _, hd'⟩
    simp only at hd'
    split at hd'
    · rename_i hib
      rcases Option.map_eq_some'.mp hd' with ⟨t', ht', heq⟩
      cases heq
      exact ⟨rfl, hib, ht'⟩
    · cases hd'
  · rintro ⟨hp, hib, ht⟩
    refine ⟨d, by cases d <;> simp [Direction.all], ?_⟩
    simp only [← hp, hib, ht, if_true]
    rfl

theorem manhattan_self (a : IVec2) : manhattan_distance a a = 0 := by
  simp [manhattan_distance]

theorem manhattan_step (a : IVec2) (d : Direction) :
    manhattan_distance a (a + d.to_ivec2) = 1 := by
  cases d <;> (simp only [manhattan_distance, Direction.to_ivec2, IVec2.add_def]; omega)

theorem manhattan_eq_one_iff {a b : IVec2} :
    manhattan_distance a b = 1 ↔ ∃ d : Direction, b = a + d.to_ivec2 := by
  constructor
  · intro h
    simp only [manhattan_distance] at h
    have hcases : (b.x = a.x ∧ b.y = a.y - 1) ∨ (b.x = a.x ∧ b.y = a.y + 1) ∨
        (b.x = a.x - 1 ∧ b.y = a.y) ∨ (b.x = a.x + 1 ∧ b.y = a.y) := by omega
    rcases hcases with ⟨hx, hy⟩ | ⟨hx, hy⟩ | ⟨hx, hy⟩ | ⟨hx, hy⟩
    · exact ⟨.Up, IVec2.ext_xy (by simp [IVec2.add_def, Direction.to_ivec2, hx])
        (by simp [IVec2.add_def, Direction.to_ivec2]; omega)⟩
    · exact ⟨.Down, IVec2.ext_xy (by simp [IVec2.add_def, Direction.to_ivec2, hx])
        (by simp [IVec2.add_def, Direction.to_ivec2]; omega)⟩
    · exact ⟨.Left, IVec2.ext_xy (by simp [IVec2.add_def, Direction.to_ivec2]; omega)
        (by simp [IVec2.add_def, Direction.to_ivec2, hy])⟩
    · exact ⟨.Right, IVec2.ext_xy (by simp [IVec2.add_def, Direction.to_ivec2]; omega)
        (by simp [IVec2.add_def, Direction.to_ivec2, hy])⟩
  · rintro ⟨d, rfl⟩
    exact manhattan_step a d

theorem triangle_manhattan (a b c : IVec2) :
    manhattan_distance a c ≤ manhattan_distance a b + manhattan_distance b c := by
  simp only [manhattan_distance]
  omega

theorem get_tile_isSome_of_in_bounds {m : Map} (hwf : m.WF) {p : IVec2}
    (hib : m.in_bounds p = true) : ∃ t, m.get_tile p = some t := by
  obtain ⟨hlen, hrows⟩ := hwf
  simp only [Map.in_bounds, Bool.and_eq_true, decide_eq_true_eq] at hib
  obtain ⟨⟨⟨hx0, hxw⟩, hy0⟩, hyh⟩ := hib
  have hyn : p.y.toNat < m.tiles.length := by omega
  have hrow : m.tiles.get? p.y.toNat = some (m.tiles.get ⟨p.y.toNat, hyn⟩) :=
    List.get?_eq_get hyn
  have hmem : m.tiles.get ⟨p.y.toNat, hyn⟩ ∈ m.tiles := List.get_mem _ _ _
  have hxl : p.x.toNat < (m.tiles.get ⟨p.y.toNat, hyn⟩).length := by
    rw [hrows _ hmem]; omega
  refine ⟨(m.tiles.get ⟨p.y.toNat, hyn⟩).get ⟨p.x.toNat, hxl⟩, ?_⟩
  simp only [Map.get_tile]
  rw [if_neg (by simp only [Bool.or_eq_true, decide_eq_true_eq]; omega), hrow]
  exact List.get?_eq_get hxl

theorem to_ivec2_injective : ∀ d d' : Direction, d.to_ivec2 = d'.to_ivec2 → d = d' := by
  intro d d' h
  cases d <;> cases d' <;> revert h <;> decide

theorem IVec2.add_right_inj {a b c : IVec2} (h : a + b = a + c) : b = c := by
  cases a; cases b; cases c
  simp only [IVec2.add_def, IVec2.mk.injEq] at h ⊢
  omega

theorem popMin_eq_none_iff (l : List PositionNode) : popMin l = none ↔ l = [] := by
  cases l with
  | nil => simp [popMin]
  | cons a rest =>
    cases hp : popMin rest with
    | none => simp [popMin, hp]
    | some pr =>
      obtain ⟨mn, r⟩ := pr
      by_cases hc : a.cost ≤ mn.cost <;> simp [popMin, hp, hc]

theorem popMin_mem : ∀ {l : List PositionNode} {a : PositionNode} {r : List PositionNode},
    popMin l = some (a, r) → a ∈ l := by
  intro l
  induction l with
  | nil => intro a r h; simp [popMin] at h
  | cons b rest ih =>
    intro a r h
    simp only [popMin] at h
    cases hp : popMin rest with
    | none =>
      simp only [hp, Option.some.injEq, Prod.mk.injEq] at h
      obtain ⟨rfl, rfl⟩ := h
      exact List.mem_cons_self _ _
    | some pr =>
      obtain ⟨mn, rr⟩ := pr
      simp only [hp] at h
      by_cases hc : b.cost ≤ mn.cost
      · rw [if_pos hc] at h
        simp only [Option.some.injEq, Prod.mk.injEq] at h
        obtain ⟨rfl, rfl⟩ := h
        exact List.mem_cons_self _ _
      · rw [if_neg hc] at h
        simp only [Option.some.injEq, Prod.mk.injEq] at h
        obtain ⟨rfl, rfl⟩ := h
        exact List.mem_cons_of_mem _ (ih hp)

theorem popMin_rest_mem : ∀ {l : List PositionNode} {a : PositionNode} {r : List PositionNode},
    popMin l = some (a, r) → ∀ x ∈ r, x ∈ l := by
  intro l
  induction l with
  | nil => intro a r h; simp [popMin] at h
  | cons b rest ih =>
    intro a r h x hx
    simp only [popMin] at h
    cases hp : popMin rest with
    | none =>
      simp only [hp, Option.some.injEq, Prod.mk.injEq] at h
      obtain ⟨rfl, rfl⟩ := h
      simp at hx
    | some pr =>
      obtain ⟨mn, rr⟩ := pr
      simp only [hp] at h
      by_cases hc : b.cost ≤ mn.cost
      · rw [if_pos hc] at h
        simp only [Option.some.injEq, Prod.mk.injEq] at h
        obtain ⟨rfl, rfl⟩ := h
        exact List.mem_cons_of_mem _ hx
      · rw [if_neg hc] at h
        simp only [Option.some.injEq, Prod.mk.injEq] at h
        obtain ⟨rfl, rfl⟩ := h
        rcases List.mem_cons.mp hx with rfl | hx'
        · exact List.mem_cons_self _ _
        · exact List.mem_cons_of_mem _ (ih hp x hx')

theorem get_neighbors_fst_eq {m : Map} {pos : IVec2} :
    ∀ nb ∈ m.get_neighbors pos, nb.1 = pos + nb.2.1.to_ivec2 := by
  intro nb hnb
  obtain ⟨p, d, t⟩ := nb
  exact (mem_get_neighbors.mp hnb).1

theorem get_neighbors_eq_filterMap (m : Map) (pos : IVec2) :
    m.get_neighbors pos = Direction.all.filterMap (fun d =>
      if m.in_bounds (pos + d.to_ivec2) then
        (m.get_tile (pos + d.to_ivec2)).map (fun t => (pos + d.to_ivec2, d, t))
      else none) := rfl

theorem get_neighbors_entry_eq {m : Map} {pos : IVec2} {d : Direction}
    {nb : IVec2 × Direction × Tile}
    (h : (if m.in_bounds (pos + d.to_ivec2) then
        (m.get_tile (pos + d.to_ivec2)).map (fun t => (pos + d.to_ivec2, d, t))
      else none) = some nb) :
    nb.1 = pos + d.to_ivec2 ∧ nb.2.1 = d := by
  split at h
  · rcases Option.map_eq_some'.mp h with ⟨t, _, rfl⟩
    exact ⟨rfl, rfl⟩
  · cases h

theorem get_neighbors_positions_nodup (m : Map) (pos : IVec2) :
    ((m.get_neighbors pos).map (fun nb => nb.1)).Nodup := by
  rw [get_neighbors_eq_filterMap, List.map_filterMap]
  apply List.Nodup.filterMap
  · intro d d' p hd hd'
    simp only [Option.mem_def, Option.map_eq_some'] at hd hd'
    obtain ⟨nb, hnb, hp⟩ := hd
    obtain ⟨nb', hnb', hp'⟩ := hd'
    have h1 := (get_neighbors_entry_eq hnb).1
    have h1' := (get_neighbors_entry_eq hnb').1
    exact to_ivec2_injective _ _
      (IVec2.add_right_inj (a := pos) (by rw [← h1, ← h1', hp, hp']))
  · decide

theorem relax_cases (goal : IVec2) (cost : Int) (cur : IVec2) (s : AStar)
    (nb : IVec2 × Direction × Tile) :
    (improves s.cost_so_far cost nb.1 = false ∧ AStar.relax goal cost cur s nb = s) ∨
    (improves s.cost_so_far cost nb.1 = true ∧ AStar.relax goal cost cur s nb =
      { came_from := (nb.1, cur) :: s.came_from
        cost_so_far := (nb.1, cost) :: s.cost_so_far
        frontier := s.frontier ++ [⟨nb.1, cost + manhattan_distance nb.1 goal⟩] }) := by
  cases h : lookupA s.cost_so_far nb.1 with
  | none =>
    refine Or.inr ⟨?_, ?_⟩
    · simp [improves, h]
    · simp [AStar.relax, h]
  | some c =>
    by_cases hc : cost < c
    · refine Or.inr ⟨?_, ?_⟩
      · simp [improves, h, hc]
      · simp [AStar.relax, h, hc]
    · refine Or.inl ⟨?_, ?_⟩
      · simp [improves, h, hc]
      · simp [AStar.relax, h, hc]

theorem relax_lookup_other (goal : IVec2) (cost : Int) (cur : IVec2) (s : AStar)
    (nb : IVec2 × Direction × Tile) (q : IVec2) (hq : q ≠ nb.1) :
    lookupA (AStar.relax goal cost cur s nb).cost_so_far q = lookupA s.cost_so_far q ∧
    lookupA (AStar.relax goal cost cur s nb).came_from q = lookupA s.came_from q := by
  rcases relax_cases goal cost cur s nb with ⟨_, heq⟩ | ⟨_, heq⟩
  · rw [heq]; exact ⟨rfl, rfl⟩
  · rw [heq]
    constructor
    · simp only [lookupA_cons]
      rw [if_neg (fun h => hq h.symm)]
    · simp only [lookupA_cons]
      rw [if_neg (fun h => hq h.symm)]

theorem relax_frontier (goal : IVec2) (cost : Int) (cur : IVec2) (s : AStar)
    (nb : IVec2 × Direction × Tile) :
    (AStar.relax goal cost cur s nb).frontier = s.frontier ++
      (if improves s.cost_so_far cost nb.1 then
        [⟨nb.1, cost + manhattan_distance nb.1 goal⟩] else []) := by
  rcases relax_cases goal cost cur s nb with ⟨hi, heq⟩ | ⟨hi, heq⟩
  · rw [heq, hi]; simp
  · rw [heq, hi]; simp

theorem relax_improved (goal : IVec2) (cost : Int) (cur : IVec2) (s : AStar)
    (nb : IVec2 × Direction × Tile) (h : improves s.cost_so_far cost nb.1 = true) :
    lookupA (AStar.relax goal cost cur s nb).cost_so_far nb.1 = some cost ∧
    lookupA (AStar.relax goal cost cur s nb).came_from nb.1 = some cur := by
  rcases relax_cases goal cost cur s nb with ⟨hi, _⟩ | ⟨_, heq⟩
  · rw [h] at hi; cases hi
  · rw [heq]
    constructor
    · simp [lookupA_cons]
    · simp [lookupA_cons]

theorem relax_improves_other (goal : IVec2) (cost cost' : Int) (cur : IVec2) (s : AStar)
    (nb : IVec2 × Direction × Tile) (q : IVec2) (hq : q ≠ nb.1) :
    improves (AStar.relax goal cost cur s nb).cost_so_far cost' q =
      improves s.cost_so_far cost' q := by
  unfold improves
  rw [(relax_lookup_other goal cost cur s nb q hq).1]

theorem foldl_relax_lookup_other (goal : IVec2) (cost : Int) (cur : IVec2) :
    ∀ (nbs : List (IVec2 × Direction × Tile)) (s : AStar) (q : IVec2),
    (∀ nb ∈ nbs, q ≠ nb.1) →
    lookupA (nbs.foldl (AStar.relax goal cost cur) s).cost_so_far q =
      lookupA s.cost_so_far q ∧
    lookupA (nbs.foldl (AStar.relax goal cost cur) s).came_from q =
      lookupA s.came_from q := by
  intro nbs
  induction nbs with
  | nil => intro s q _; exact ⟨rfl, rfl⟩
  | cons nb rest ih =>
    intro s q hq
    have hq0 : q ≠ nb.1 := hq nb (List.mem_cons_self _ _)
    have hrest : ∀ nb' ∈ rest, q ≠ nb'.1 := fun nb' h => hq nb' (List.mem_cons_of_mem _ h)
    simp only [List.foldl_cons]
    constructor
    · rw [(ih (AStar.relax goal cost cur s nb) q hrest).1,
        (relax_lookup_other goal cost cur s nb q hq0).1]
    · rw [(ih (AStar.relax goal cost cur s nb) q hrest).2,
        (relax_lookup_other goal cost cur s nb q hq0).2]

theorem foldl_relax_frontier (goal : IVec2) (cost : Int) (cur : IVec2) :
    ∀ (nbs : List (IVec2 × Direction × Tile)) (s : AStar),
    (nbs.map (fun nb => nb.1)).Nodup →
    (nbs.foldl (AStar.relax goal cost cur) s).frontier = s.frontier ++
      nbs.filterMap (fun nb =>
        if improves s.cost_so_far cost nb.1 then
          some ⟨nb.1, cost + manhattan_distance nb.1 goal⟩ else none) := by
  intro nbs
  induction nbs with
  | nil => intro s _; simp
  | cons nb rest ih =>
    intro s hnd
    simp only [List.map_cons, List.nodup_cons] at hnd
    obtain ⟨hnotin, hndrest⟩ := hnd
    simp only [List.foldl_cons, List.filterMap_cons]
    rw [ih (AStar.relax goal cost cur s nb) hndrest]
    have hcongr : rest.filterMap (fun nb' =>
        if improves (AStar.relax goal cost cur s nb).cost_so_far cost nb'.1 then
          some (⟨nb'.1, cost + manhattan_distance nb'.1 goal⟩ : PositionNode) else none) =
      rest.filterMap (fun nb' =>
        if improves s.cost_so_far cost nb'.1 then
          some ⟨nb'.1, cost + manhattan_distance nb'.1 goal⟩ else none) := by
      apply List.filterMap_congr
      intro nb' hnb'
      have hne : nb'.1 ≠ nb.1 := by
        intro he
        exact hnotin (he ▸ List.mem_map_of_mem (fun x => x.1) hnb')
      rw [relax_improves_other goal cost cost cur s nb nb'.1 hne]
    rw [hcongr, relax_frontier]
    cases hi : improves s.cost_so_far cost nb.1 <;> simp

theorem foldl_relax_entry_spec (goal : IVec2) (cost : Int) (cur : IVec2) :
    ∀ (nbs : List (IVec2 × Direction × Tile)) (s : AStar),
    (nbs.map (fun nb => nb.1)).Nodup →
    ∀ nb ∈ nbs,
      (improves s.cost_so_far cost nb.1 = true →
        lookupA (nbs.foldl (AStar.relax goal cost cur) s).cost_so_far nb.1 = some cost ∧
        lookupA (nbs.foldl (AStar.relax goal cost cur) s).came_from nb.1 = some cur) ∧
      (improves s.cost_so_far cost nb.1 = false →
        lookupA (nbs.foldl (AStar.relax goal cost cur) s).cost_so_far nb.1 =
          lookupA s.cost_so_far nb.1 ∧
        lookupA (nbs.foldl (AStar.relax goal cost cur) s).came_from nb.1 =
          lookupA s.came_from nb.1) := by
  intro nbs
  induction nbs with
  | nil => intro s _ nb h; simp at h
  | cons nb0 rest ih =>
    intro s hnd nb hmem
    simp only [List.map_cons, List.nodup_cons] at hnd
    obtain ⟨hnotin, hndrest⟩ := hnd
    simp only [List.foldl_cons]
    rcases List.mem_cons.mp hmem with rfl | hmem'
    · have hother : ∀ nb' ∈ rest, nb.1 ≠ nb'.1 := by
        intro nb' h' he
        exact hnotin (he ▸ List.mem_map_of_mem (fun x => x.1) h')
      have huntouched := foldl_relax_lookup_other goal cost cur rest
        (AStar.relax goal cost cur s nb) nb.1 hother
      constructor
      · intro hi
        have := relax_improved goal cost cur s nb hi
        exact ⟨huntouched.1.trans this.1, huntouched.2.trans this.2⟩
      · intro hi
        rcases relax_cases goal cost cur s nb with ⟨_, heq⟩ | ⟨hi', _⟩
        · rw [heq]
          exact foldl_relax_lookup_other goal cost cur rest s nb.1 hother
        · rw [hi'] at hi; cases hi
    · have hne : nb.1 ≠ nb0.1 := by
        intro he
        exact hnotin (he ▸ List.mem_map_of_mem (fun x => x.1) hmem')
      have himp := relax_improves_other goal cost cost cur s nb0 nb.1 hne
      have hbase := relax_lookup_other goal cost cur s nb0 nb.1 hne
      have hrec := ih (AStar.relax goal cost cur s nb0) hndrest nb hmem'
      constructor
      · intro hi
        have hi' : improves (AStar.relax goal cost cur s nb0).cost_so_far cost nb.1 = true := by
          rw [himp]; exact hi
        exact hrec.1 hi'
      · intro hi
        have hi' : improves (AStar.relax goal cost cur s nb0).cost_so_far cost nb.1 = false := by
          rw [himp]; exact hi
        have h2 := hrec.2 hi'
        exact ⟨h2.1.trans hbase.1, h2.2.trans hbase.2⟩

theorem relax_frontierCosted (goal : IVec2) (cost : Int) (cur : IVec2) (s : AStar)
    (nb : IVec2 × Direction × Tile) (h : s.FrontierCosted) :
    (AStar.relax goal cost cur s nb).FrontierCosted := by
  rcases relax_cases goal cost cur s nb with ⟨_, heq⟩ | ⟨_, heq⟩
  · rw [heq]; exact h
  · rw [heq]
    intro n hn
    rcases List.mem_append.mp hn with hold | hnew
    · exact lookupA_isSome_cons _ _ (h n hold)
    · have : n = ⟨nb.1, cost + manhattan_distance nb.1 goal⟩ := by
        simpa using hnew
      subst this
      simp [lookupA_cons]

theorem foldl_relax_frontierCosted (goal : IVec2) (cost : Int) (cur : IVec2) :
    ∀ (nbs : List (IVec2 × Direction × Tile)) (s : AStar), s.FrontierCosted →
    (nbs.foldl (AStar.relax goal cost cur) s).FrontierCosted := by
  intro nbs
  induction nbs with
  | nil => intro s h; exact h
  | cons nb rest ih =>
    intro s h
    exact ih _ (relax_frontierCosted goal cost cur s nb h)

theorem frontierCosted_drop_frontier (s : AStar) (h : s.FrontierCosted)
    (r : List PositionNode) (hr : ∀ x ∈ r, x ∈ s.frontier) :
    AStar.FrontierCosted { s with frontier := r } := by
  intro n hn
  exact h n (hr n hn)

theorem choose_snd_frontierCosted (s : AStar) (m : Map) (cur : IVec2)
    (h : s.FrontierCosted) : ((s.choose m cur).2).FrontierCosted := by
  cases hp : popMin s.frontier with
  | none =>
    simp only [AStar.choose, hp]
    exact h
  | some pr =>
    obtain ⟨next, rest⟩ := pr
    have hrest := frontierCosted_drop_frontier s h rest (popMin_rest_mem hp)
    simp only [AStar.choose, hp]
    cases hf : (m.get_neighbors cur).find? (fun nb => nb.1 == next.position) with
    | none => simpa only [hf] using hrest
    | some nb => simpa only [hf] using hrest

theorem run_total_frontierCosted (s : AStar) (m : Map) (goal : IVec2)
    (h : s.FrontierCosted) :
    ∃ d s', AStar.run s m goal = some (d, s') ∧ s'.FrontierCosted := by
  cases hp : popMin s.frontier with
  | none =>
    simp only [AStar.run, hp]
    exact ⟨none, s, rfl, h⟩
  | some pr =>
    obtain ⟨current, rest⟩ := pr
    have hrest := frontierCosted_drop_frontier s h rest (popMin_rest_mem hp)
    simp only [AStar.run, hp]
    by_cases hg : current.position = goal
    · rw [if_pos hg]
      exact ⟨none, _, rfl, hrest⟩
    · rw [if_neg hg]
      have hcur : (lookupA s.cost_so_far current.position).isSome = true :=
        h current (popMin_mem hp)
      obtain ⟨c0, hc0⟩ := Option.isSome_iff_exists.mp hcur
      have hc0' : lookupA ({ s with frontier := rest } : AStar).cost_so_far
          current.position = some c0 := hc0
      rw [hc0']
      have hexp := foldl_relax_frontierCosted goal (c0 + 1) current.position
        (m.get_neighbors current.position) { s with frontier := rest } hrest
      exact ⟨_, _, rfl, choose_snd_frontierCosted _ m current.position hexp⟩

theorem path_end_cons (a b : IVec2) (rest : List IVec2) :
    path_end a (b :: rest) = path_end b rest := rfl

theorem manhattan_le_path_from (m : Map) :
    ∀ (l : List IVec2) (a : IVec2), path_from (valid_step m) a l = true →
    manhattan_distance a (path_end a l) ≤ (l.length : Int) := by
  intro l
  induction l with
  | nil =>
    intro a _
    simp [path_end, manhattan_self]
  | cons b rest ih =>
    intro a h
    simp only [path_from, Bool.and_eq_true] at h
    obtain ⟨hstep, hrest⟩ := h
    rw [path_end_cons]
    have h1 : manhattan_distance a b = 1 := by
      unfold valid_step at hstep
      rcases List.any_eq_true.mp hstep with ⟨nb, hnb, heq⟩
      have hfst := get_neighbors_fst_eq nb hnb
      rw [beq_iff_eq] at heq
      rw [← heq, hfst]
      exact manhattan_step a nb.2.1
    have h2 := ih b hrest
    have h3 := triangle_manhattan a b (path_end b rest)
    simp only [List.length_cons]
    push_cast
    omega

theorem mapWalled_closed : ∀ a ∈ ([⟨0, 0⟩, ⟨0, 1⟩] : List IVec2), ∀ b : IVec2,
    passable_step mapWalled a b = true → b ∈ ([⟨0, 0⟩, ⟨0, 1⟩] : List IVec2) := by
  intro a ha b hb
  unfold passable_step valid_step at hb
  rw [Bool.and_eq_true] at hb
  obtain ⟨hstep, hpass⟩ := hb
  rcases List.mem_cons.mp ha with rfl | ha'
  · have hn : mapWalled.get_neighbors ⟨0, 0⟩ =
        [(⟨0, 1⟩, .Down, .CLEAN), (⟨1, 0⟩, .Right, .IMPASSABLE)] := by decide
    rw [hn] at hstep
    simp only [List.any_cons, List.any_nil, Bool.or_eq_true, beq_iff_eq] at hstep
    rcases hstep with rfl | rfl | h
    · simp
    · exfalso
      exact absurd hpass (by decide)
    · cases h
  · rcases List.mem_cons.mp ha' with rfl | ha''
    · have hn : mapWalled.get_neighbors ⟨0, 1⟩ =
          [(⟨0, 0⟩, .Up, .CLEAN), (⟨1, 1⟩, .Right, .IMPASSABLE)] := by decide
      rw [hn] at hstep
      simp only [List.any_cons, List.any_nil, Bool.or_eq_true, beq_iff_eq] at hstep
      rcases hstep with rfl | rfl | h
      · simp
      · exfalso
        exact absurd hpass (by decide)
      · cases h
    · cases ha''

theorem mapWalled_walled_off : walled_off mapWalled ⟨0, 0⟩ ⟨2, 0⟩ := by
  have inv : ∀ (l : List IVec2) (a : IVec2), a ∈ ([⟨0, 0⟩, ⟨0, 1⟩] : List IVec2) →
      path_from (passable_step mapWalled) a l = true →
      path_end a l ∈ ([⟨0, 0⟩, ⟨0, 1⟩] : List IVec2) := by
    intro l
    induction l with
    | nil =>
      intro a ha _
      simpa [path_end] using ha
    | cons b rest ih =>
      intro a ha h
      simp only [path_from, Bool.and_eq_true] at h
      obtain ⟨hstep, hrest⟩ := h
      rw [path_end_cons]
      exact ih b (mapWalled_closed a ha b hstep) hrest
  intro l hl hend
  have hmem := inv l ⟨0, 0⟩ (by simp) hl
  rw [hend] at hmem
  exact absurd hmem (by decide)

theorem in_bounds_iff {m : Map} {p : IVec2} :
    m.in_bounds p = true ↔
      0 ≤ p.x ∧ p.x < (m.width : Int) ∧ 0 ≤ p.y ∧ p.y < (m.height : Int) := by
  simp [Map.in_bounds, and_assoc]

theorem filterMap_cons_length {α β : Type} (f : α → Option β) (d : α) (l : List α) :
    (List.filterMap f (d :: l)).length =
      (if (f d).isSome = true then 1 else 0) + (List.filterMap f l).length := by
  cases hfd : f d <;> simp [List.filterMap_cons, hfd, Nat.add_comm]

theorem get_neighbors_entry_isSome {m : Map} (hwf : m.WF) (c : IVec2) (d : Direction) :
    (if m.in_bounds (c + d.to_ivec2) then
      (m.get_tile (c + d.to_ivec2)).map (fun t => (c + d.to_ivec2, d, t))
    else none).isSome = m.in_bounds (c + d.to_ivec2) := by
  cases hib : m.in_bounds (c + d.to_ivec2)
  · simp [hib]
  · obtain ⟨t, ht⟩ := get_tile_isSome_of_in_bounds hwf hib
    simp [hib, ht]

theorem get_neighbors_length_eq (m : Map) (c : IVec2) (hwf : m.WF)
    (hc : m.in_bounds c = true) :
    (m.get_neighbors c).length =
      (if 0 ≤ c.y - 1 then 1 else 0) + (if c.y + 1 < (m.height : Int) then 1 else 0) +
      (if 0 ≤ c.x - 1 then 1 else 0) + (if c.x + 1 < (m.width : Int) then 1 else 0) := by
  obtain ⟨hx0, hxw, hy0, hyh⟩ := in_bounds_iff.mp hc
  have har : ∀ d : Direction, ∀ q : Prop, [Decidable q] →
      (m.in_bounds (c + d.to_ivec2) = true ↔ q) →
      (if m.in_bounds (c + d.to_ivec2) = true then 1 else 0) = (if q then 1 else 0) := by
    intro d q _ hiff
    exact if_congr hiff rfl rfl
  have harU : m.in_bounds (c + Direction.Up.to_ivec2) = true ↔ 0 ≤ c.y - 1 := by
    rw [in_bounds_iff]
    simp only [IVec2.add_def, Direction.to_ivec2]
    constructor
    · rintro ⟨_, _, h3, _⟩; omega
    · intro h'; exact ⟨by omega, by omega, by omega, by omega⟩
  have harD : m.in_bounds (c + Direction.Down.to_ivec2) = true ↔
      c.y + 1 < (m.height : Int) := by
    rw [in_bounds_iff]
    simp only [IVec2.add_def, Direction.to_ivec2]
    constructor
    · rintro ⟨_, _, _, h4⟩; omega
    · intro h'; exact ⟨by omega, by omega, by omega, by omega⟩
  have harL : m.in_bounds (c + Direction.Left.to_ivec2) = true ↔ 0 ≤ c.x - 1 := by
    rw [in_bounds_iff]
    simp only [IVec2.add_def, Direction.to_ivec2]
    constructor
    · rintro ⟨h1, _, _, _⟩; omega
    · intro h'; exact ⟨by omega, by omega, by omega, by omega⟩
  have harR : m.in_bounds (c + Direction.Right.to_ivec2) = true ↔
      c.x + 1 < (m.width : Int) := by
    rw [in_bounds_iff]
    simp only [IVec2.add_def, Direction.to_ivec2]
    constructor
    · rintro ⟨_, h2, _, _⟩; omega
    · intro h'; exact ⟨by omega, by omega, by omega, by omega⟩
  rw [get_neighbors_eq_filterMap]
  rw [show Direction.all = [.Up, .Down, .Left, .Right] from rfl]
  rw [filterMap_cons_length, filterMap_cons_length, filterMap_cons_length,
    filterMap_cons_length]
  simp only [List.filterMap_nil, List.length_nil, Nat.add_zero]
  rw [get_neighbors_entry_isSome hwf c .Up, get_neighbors_entry_isSome hwf c .Down,
    get_neighbors_entry_isSome hwf c .Left, get_neighbors_entry_isSome hwf c .Right]
  rw [har .Up _ harU, har .Down _ harD, har .Left _ harL, har .Right _ harR]
  omega

theorem get_tile_eq_none_of_oob {m : Map} (hwf : m.WF) {p : IVec2}
    (hoob : m.in_bounds p = false) : m.get_tile p = none := by
  obtain ⟨hlen, hrows⟩ := hwf
  have hnb : ¬(0 ≤ p.x ∧ p.x < (m.width : Int) ∧ 0 ≤ p.y ∧ p.y < (m.height : Int)) := by
    intro hc
    rw [in_bounds_iff.mpr hc] at hoob
    cases hoob
  unfold Map.get_tile
  by_cases hneg : p.y < 0 ∨ p.x < 0
  · rw [if_pos (by simp only [Bool.or_eq_true, decide_eq_true_eq]; exact hneg)]
  · push_neg at hneg
    rw [if_neg (by simp only [Bool.or_eq_true, decide_eq_true_eq]; omega)]
    have hor : (m.height : Int) ≤ p.y ∨ (m.width : Int) ≤ p.x := by omega
    rcases hor with hy | hx
    · rw [List.get?_eq_none.mpr (by omega)]
      rfl
    · cases hrow : m.tiles.get? p.y.toNat with
      | none => rfl
      | some row =>
        have hrl : row.length = m.width := hrows row (List.get?_mem hrow)
        show row.get? p.x.toNat = none
        exact List.get?_eq_none.mpr (by omega)

theorem set_tile_eq_none_of_oob {m : Map} (hwf : m.WF) {p : IVec2}
    (hoob : m.in_bounds p = false) (t : Tile) : m.set_tile p t = none := by
  obtain ⟨hlen, hrows⟩ := hwf
  have hnb : ¬(0 ≤ p.x ∧ p.x < (m.width : Int) ∧ 0 ≤ p.y ∧ p.y < (m.height : Int)) := by
    intro hc
    rw [in_bounds_iff.mpr hc] at hoob
    cases hoob
  unfold Map.set_tile
  by_cases hneg : p.y < 0 ∨ p.x < 0
  · rw [if_pos (by simp only [Bool.or_eq_true, decide_eq_true_eq]; exact hneg)]
  · push_neg at hneg
    rw [if_neg (by simp only [Bool.or_eq_true, decide_eq_true_eq]; omega)]
    have hor : (m.height : Int) ≤ p.y ∨ (m.width : Int) ≤ p.x := by omega
    rcases hor with hy | hx
    · rw [List.get?_eq_none.mpr (by omega)]
    · cases hrow : m.tiles.get? p.y.toNat with
      | none => rfl
      | some row =>
        have hrl : row.length = m.width := hrows row (List.get?_mem hrow)
        show (if p.x.toNat < row.length then
          some { m with tiles := m.tiles.set p.y.toNat (row.set p.x.toNat t) }
        else none) = none
        rw [if_neg (by omega)]

theorem run_stuck (e : SimulationEnvironment) (hf : e.astar.frontier = [])
    (hne : e.robot_position ≠ e.goal_position) :
    e.run = some { e with turn_count := e.turn_count + 1, state := .RUN } := by
  unfold SimulationEnvironment.run
  simp only [AStar.run, hf, popMin]
  rw [if_neg hne]

theorem cct_stuck_state : ∀ n : Nat, envCCT.runN (n + 1) = some
    { map := mapCCT, robot_position := ⟨1, 0⟩, goal_position := ⟨2, 0⟩,
      astar := ⟨[(⟨1, 0⟩, ⟨0, 0⟩)], [(⟨1, 0⟩, 1), (⟨0, 0⟩, 0)], []⟩,
      state := .RUN, turn_count := n + 1 } := by
  intro n
  induction n with
  | zero => decide
  | succ k ih =>
    show (envCCT.runN (k + 1)).bind SimulationEnvironment.run = _
    rw [ih]
    rw [Option.some_bind]
    exact run_stuck
      { map := mapCCT, robot_position := ⟨1, 0⟩, goal_position := ⟨2, 0⟩,
        astar := ⟨[(⟨1, 0⟩, ⟨0, 0⟩)], [(⟨1, 0⟩, 1), (⟨0, 0⟩, 0)], []⟩,
        state := .RUN, turn_count := k + 1 } rfl
      (by decide : (⟨1, 0⟩ : IVec2) ≠ (⟨2, 0⟩ : IVec2))

/-! ## Claims -/

/-- C1: on the 3×1 grid `"CCT"` with the agent at (0,0) and the goal at
(2,0), the spec expects Finished after exactly 2 ticks with path
(0,0)→(1,0)→(2,0). The code instead moves the agent to (1,0) on tick 1,
exhausts the frontier doing so, and then waits forever: after every tick
`n + 1` the agent is still at (1,0) with lifecycle state `RUN`, never `END`. -/
theorem cct_scenario_never_finishes :
    (envCCT.runN 1).map (fun e => (e.robot_position, e.state)) =
      some (⟨1, 0⟩, .RUN) ∧
    (envCCT.runN 2).map (fun e => (e.robot_position, e.state)) =
      some (⟨1, 0⟩, .RUN) ∧
    ∀ n, (envCCT.runN (n + 1)).map (fun e => (e.robot_position, e.state)) =
      some (⟨1, 0⟩, .RUN) := by
  refine ⟨by decide, by decide, ?_⟩
  intro n
  rw [cct_stuck_state n]
  rfl

/-- C3: the claim says that on every grid whose goal is fully walled off the
simulation never reports Finished. On the 3×2 grid `"CWT"/"CWC"` the goal
(2,0) is walled off from the start (0,0), yet the simulation reaches `END`
on tick 2: `get_neighbors` does not filter impassable tiles and the search's
direction is applied to the robot's own position, not the expanded node's. -/
theorem walled_goal_reached :
    walled_off mapWalled ⟨0, 0⟩ ⟨2, 0⟩ ∧
    envWalled.goal_position = ⟨2, 0⟩ ∧ envWalled.robot_position = ⟨0, 0⟩ ∧
    (envWalled.runN 2).map (fun e => (e.robot_position, e.state)) =
      some (⟨2, 0⟩, .END) :=
  ⟨mapWalled_walled_off, rfl, rfl, by decide⟩

/-- C4 counterexample: a simulation state whose lifecycle flag is `END` but
whose frontier still holds a non-goal entry; calling `run` moves the robot
off the goal (to (3,0)) and flips the state back to `RUN`, so `tick()` after
Finished is not a pure counter increment. -/
theorem tick_after_finished_changes_state :
    envFinishedBusy.state = .END ∧
    envFinishedBusy.run.map (fun e => (e.robot_position, e.state)) =
      some (⟨3, 0⟩, .RUN) := by
  constructor
  · rfl
  · decide

/-- C4 (amended): if the lifecycle flag is `END`, the agent sits on the goal
and the frontier is exhausted, then one more `run` only increments the turn
counter: position, goal, grid, lifecycle flag and the entire search state are
unchanged. -/
theorem tick_after_finished_frame (e : SimulationEnvironment)
    (h1 : e.state = .END) (h2 : e.robot_position = e.goal_position)
    (h3 : e.astar.frontier = []) :
    e.run = some { e with turn_count := e.turn_count + 1 } := by
  unfold SimulationEnvironment.run
  simp only [AStar.run, h3, popMin]
  rw [if_pos h2, ← h1]

/-- Witness for C4's amended theorem at a concrete Finished state. -/
theorem tick_after_finished_frame_witness :
    envFinishedIdle.state = .END ∧
    envFinishedIdle.robot_position = envFinishedIdle.goal_position ∧
    envFinishedIdle.astar.frontier = [] ∧
    envFinishedIdle.run = some { envFinishedIdle with turn_count := 4 } :=
  ⟨rfl, rfl, rfl, tick_after_finished_frame envFinishedIdle rfl rfl rfl⟩

/-- C5 counterexample: the out-of-bounds coordinate (-1,0) is not rejected
by `get_neighbors`: instead of failing it returns a non-empty neighbor map.
(No `OutOfBounds` error value exists anywhere in the code.) -/
theorem oob_neighbors_not_rejected :
    mapCCT.in_bounds ⟨-1, 0⟩ = false ∧
    mapCCT.get_neighbors ⟨-1, 0⟩ = [(⟨0, 0⟩, .Right, .CLEAN)] := by
  constructor
  · rfl
  · decide

/-- C5 (amended): for every out-of-bounds coordinate, `get_tile` and
`set_tile` abort with an index panic (modelled as `none`) rather than
returning an `OutOfBounds` error, and `get_neighbors` does not fail at all:
every entry it returns lies in bounds (and the list may be non-empty). -/
theorem oob_access_behavior (m : Map) (p : IVec2) (hwf : m.WF)
    (hoob : m.in_bounds p = false) :
    m.get_tile p = none ∧ (∀ t, m.set_tile p t = none) ∧
    ∀ nb ∈ m.get_neighbors p, m.in_bounds nb.1 = true := by
  refine ⟨get_tile_eq_none_of_oob hwf hoob,
    fun t => set_tile_eq_none_of_oob hwf hoob t, ?_⟩
  intro nb hnb
  obtain ⟨q, d, t⟩ := nb
  exact (mem_get_neighbors.mp hnb).2.1

/-- Witness for C5's amended theorem at the concrete coordinate (3,0) of the
3×1 grid. -/
theorem oob_access_behavior_witness :
    mapCCT.WF ∧ mapCCT.in_bounds ⟨3, 0⟩ = false ∧
    (mapCCT.get_tile ⟨3, 0⟩ = none ∧ (∀ t, mapCCT.set_tile ⟨3, 0⟩ t = none) ∧
      ∀ nb ∈ mapCCT.get_neighbors ⟨3, 0⟩, mapCCT.in_bounds nb.1 = true) :=
  ⟨by decide, by decide, oob_access_behavior mapCCT ⟨3, 0⟩ (by decide) (by decide)⟩

/-- C6: for an in-bounds coordinate `c` of a well-formed grid,
`get_neighbors c` contains exactly the in-bounds coordinates at Manhattan
distance 1 from `c` (with no filtering of impassable tiles), each entry
carries the direction from `c` and the tile at the neighbor, there are at
most 4 entries, and there are fewer than 4 exactly when `c` lies on a grid
edge or corner. -/
theorem get_neighbors_spec (m : Map) (c : IVec2) (hwf : m.WF)
    (hc : m.in_bounds c = true) :
    (∀ p : IVec2, (∃ d t, (p, d, t) ∈ m.get_neighbors c) ↔
      (m.in_bounds p = true ∧ manhattan_distance c p = 1)) ∧
    (∀ p d t, (p, d, t) ∈ m.get_neighbors c →
      p = c + d.to_ivec2 ∧ m.get_tile p = some t) ∧
    (m.get_neighbors c).length ≤ 4 ∧
    ((m.get_neighbors c).length < 4 ↔
      (c.x = 0 ∨ c.x = (m.width : Int) - 1 ∨ c.y = 0 ∨
        c.y = (m.height : Int) - 1)) := by
  refine ⟨?_, ?_, ?_, ?_⟩
  · intro p
    constructor
    · rintro ⟨d, t, hmem⟩
      obtain ⟨hp, hib, _⟩ := mem_get_neighbors.mp hmem
      exact ⟨hib, by rw [hp]; exact manhattan_step c d⟩
    · rintro ⟨hib, hman⟩
      obtain ⟨d, rfl⟩ := manhattan_eq_one_iff.mp hman
      obtain ⟨t, ht⟩ := get_tile_isSome_of_in_bounds hwf hib
      exact ⟨d, t, mem_get_neighbors.mpr ⟨rfl, hib, ht⟩⟩
  · intro p d t hmem
    obtain ⟨hp, _, ht⟩ := mem_get_neighbors.mp hmem
    exact ⟨hp, ht⟩
  · rw [get_neighbors_length_eq m c hwf hc]
    split_ifs <;> omega
  · obtain ⟨hx0, hxw, hy0, hyh⟩ := in_bounds_iff.mp hc
    rw [get_neighbors_length_eq m c hwf hc]
    split_ifs <;> constructor <;> intro <;> omega

/-- Witness for C6 at (0,0) on the 3×1 grid `"CCT"`. -/
theorem get_neighbors_spec_witness :
    mapCCT.WF ∧ mapCCT.in_bounds ⟨0, 0⟩ = true ∧
    ((∀ p : IVec2, (∃ d t, (p, d, t) ∈ mapCCT.get_neighbors ⟨0, 0⟩) ↔
      (mapCCT.in_bounds p = true ∧ manhattan_distance ⟨0, 0⟩ p = 1)) ∧
    (∀ p d t, (p, d, t) ∈ mapCCT.get_neighbors ⟨0, 0⟩ →
      p = ⟨0, 0⟩ + d.to_ivec2 ∧ mapCCT.get_tile p = some t) ∧
    (mapCCT.get_neighbors ⟨0, 0⟩).length ≤ 4 ∧
    ((mapCCT.get_neighbors ⟨0, 0⟩).length < 4 ↔
      ((⟨0, 0⟩ : IVec2).x = 0 ∨ (⟨0, 0⟩ : IVec2).x = (mapCCT.width : Int) - 1 ∨
        (⟨0, 0⟩ : IVec2).y = 0 ∨ (⟨0, 0⟩ : IVec2).y = (mapCCT.height : Int) - 1))) :=
  ⟨by decide, by decide, get_neighbors_spec mapCCT ⟨0, 0⟩ (by decide) (by decide)⟩

/-- C8: the Manhattan distance is admissible: for every pair of coordinates
joined by a path of unit 4-directional in-bounds steps, the Manhattan
distance between them is at most the length of the shortest such path. -/
theorem manhattan_admissible (m : Map) (a b : IVec2)
    (hreach : ∃ l, path_from (valid_step m) a l = true ∧ path_end a l = b) :
    manhattan_distance a b ≤
      Int.ofNat (sInf {n : ℕ | ∃ l, path_from (valid_step m) a l = true ∧
        path_end a l = b ∧ l.length = n}) := by
  have hne : {n : ℕ | ∃ l, path_from (valid_step m) a l = true ∧
      path_end a l = b ∧ l.length = n}.Nonempty := by
    obtain ⟨l, hl, he⟩ := hreach
    exact ⟨l.length, l, hl, he, rfl⟩
  obtain ⟨l0, hl0, he0, hlen0⟩ := Nat.sInf_mem hne
  calc manhattan_distance a b
      = manhattan_distance a (path_end a l0) := by rw [he0]
    _ ≤ (l0.length : Int) := manhattan_le_path_from m l0 a hl0
    _ = _ := by rw [hlen0]; rfl

/-- Witness for C8: the start (0,0) and the goal (2,0) of the `"CCT"` grid
are joined by the two-step path through (1,0). -/
theorem manhattan_admissible_witness :
    (∃ l, path_from (valid_step mapCCT) ⟨0, 0⟩ l = true ∧
      path_end ⟨0, 0⟩ l = ⟨2, 0⟩) ∧
    manhattan_distance ⟨0, 0⟩ ⟨2, 0⟩ ≤
      Int.ofNat (sInf {n : ℕ | ∃ l, path_from (valid_step mapCCT) ⟨0, 0⟩ l = true ∧
        path_end ⟨0, 0⟩ l = ⟨2, 0⟩ ∧ l.length = n}) :=
  ⟨⟨[⟨1, 0⟩, ⟨2, 0⟩], by decide, by decide⟩,
    manhattan_admissible mapCCT ⟨0, 0⟩ ⟨2, 0⟩
      ⟨[⟨1, 0⟩, ⟨2, 0⟩], by decide, by decide⟩⟩

/-- C9: every frontier entry's position has a recorded cost. The invariant
holds at construction (`AStar::new`) and is preserved by `AStar::run`, and
under it the unchecked `cost_so_far[&current.position]` lookup cannot fail:
`run` always returns a value (never panics). -/
theorem frontier_costed_invariant (start : IVec2) (s : AStar) (m : Map)
    (goal : IVec2) :
    (AStar.new start).FrontierCosted ∧
    (s.FrontierCosted →
      ∃ d s', AStar.run s m goal = some (d, s') ∧ s'.FrontierCosted) := by
  constructor
  · intro n hn
    have hn' : n = ⟨start, 0⟩ := by simpa [AStar.new] using hn
    subst hn'
    simp [AStar.new, lookupA_cons]
  · exact run_total_frontierCosted s m goal

/-- Witness for C9 on the `"CCT"` search instance. -/
theorem frontier_costed_invariant_witness :
    (AStar.new ⟨0, 0⟩).FrontierCosted ∧
    ∃ d s', AStar.run (AStar.new ⟨0, 0⟩) mapCCT ⟨2, 0⟩ = some (d, s') ∧
      s'.FrontierCosted :=
  ⟨(frontier_costed_invariant ⟨0, 0⟩ (AStar.new ⟨0, 0⟩) mapCCT ⟨2, 0⟩).1,
    (frontier_costed_invariant ⟨0, 0⟩ (AStar.new ⟨0, 0⟩) mapCCT ⟨2, 0⟩).2
      (by decide)⟩

theorem run_eq_of_pop (s : AStar) (m : Map) (goal : IVec2)
    (current : PositionNode) (rest : List PositionNode) (c0 : Int)
    (hpop : popMin s.frontier = some (current, rest))
    (hg : current.position ≠ goal)
    (hc : lookupA s.cost_so_far current.position = some c0) :
    AStar.run s m goal = some (AStar.choose
      (AStar.expand { s with frontier := rest } m goal current.position (c0 + 1))
      m current.position) := by
  simp only [AStar.run, hpop]
  rw [if_neg hg]
  have hc' : lookupA ({ s with frontier := rest } : AStar).cost_so_far
      current.position = some c0 := hc
  rw [hc']

theorem find_neighbor_eq (m : Map) (hwf : m.WF) (cur p : IVec2) :
    ((m.get_neighbors cur).find? (fun nb => nb.1 == p) = none ↔
      ¬(m.in_bounds p = true ∧ manhattan_distance cur p = 1)) ∧
    ∀ nb, (m.get_neighbors cur).find? (fun nb => nb.1 == p) = some nb →
      nb.1 = p ∧ p = cur + nb.2.1.to_ivec2 ∧ m.in_bounds p = true ∧
        manhattan_distance cur p = 1 := by
  constructor
  · constructor
    · rintro hnone ⟨hib, hman⟩
      obtain ⟨d, rfl⟩ := manhattan_eq_one_iff.mp hman
      obtain ⟨t, ht⟩ := get_tile_isSome_of_in_bounds hwf hib
      have hmem : (cur + d.to_ivec2, d, t) ∈ m.get_neighbors cur :=
        mem_get_neighbors.mpr ⟨rfl, hib, ht⟩
      have := List.find?_eq_none.mp hnone _ hmem
      simp at this
    · intro hno
      cases hf : (m.get_neighbors cur).find? (fun nb => nb.1 == p) with
      | none => rfl
      | some nb =>
        exfalso
        obtain ⟨q, d, t⟩ := nb
        have hp := List.find?_some hf
        rw [beq_iff_eq] at hp
        have hmem := List.mem_of_find?_eq_some hf
        obtain ⟨hq, hib, _⟩ := mem_get_neighbors.mp hmem
        refine hno ⟨by rw [← hp]; exact hib, ?_⟩
        rw [← hp, hq]
        exact manhattan_step cur d
  · intro nb hnb
    obtain ⟨q, d, t⟩ := nb
    have hp := List.find?_some hnb
    rw [beq_iff_eq] at hp
    have hmem := List.mem_of_find?_eq_some hnb
    obtain ⟨hq, hib, _⟩ := mem_get_neighbors.mp hmem
    refine ⟨hp, ?_, by rw [← hp]; exact hib, ?_⟩
    · rw [← hp]; exact hq
    · rw [← hp, hq]
      exact manhattan_step cur d

/-- C2: when `AStar::run` pops a non-goal entry `current` from a non-empty
frontier, the relaxation cost is `best_cost[current] + 1`; every neighbor
whose recorded cost is missing or improved gets that cost recorded, an entry
with priority `cost + manhattan(neighbor, goal)` pushed, and its parent set
to `current`; neighbors that are not improved keep their cost and parent
entries, and exactly the improved neighbors are pushed onto the frontier. -/
theorem astar_expansion_spec (s : AStar) (m : Map) (goal : IVec2)
    (current : PositionNode) (rest : List PositionNode) (c0 : Int)
    (hpop : popMin s.frontier = some (current, rest))
    (hg : current.position ≠ goal)
    (hc : lookupA s.cost_so_far current.position = some c0) :
    AStar.run s m goal = some (AStar.choose
      (AStar.expand { s with frontier := rest } m goal current.position (c0 + 1))
      m current.position) ∧
    (∀ nb ∈ m.get_neighbors current.position,
      (improves s.cost_so_far (c0 + 1) nb.1 = true →
        lookupA (AStar.expand { s with frontier := rest } m goal current.position
          (c0 + 1)).cost_so_far nb.1 = some (c0 + 1) ∧
        lookupA (AStar.expand { s with frontier := rest } m goal current.position
          (c0 + 1)).came_from nb.1 = some current.position) ∧
      (improves s.cost_so_far (c0 + 1) nb.1 = false →
        lookupA (AStar.expand { s with frontier := rest } m goal current.position
          (c0 + 1)).cost_so_far nb.1 = lookupA s.cost_so_far nb.1 ∧
        lookupA (AStar.expand { s with frontier := rest } m goal current.position
          (c0 + 1)).came_from nb.1 = lookupA s.came_from nb.1)) ∧
    (AStar.expand { s with frontier := rest } m goal current.position
      (c0 + 1)).frontier = rest ++
      (m.get_neighbors current.position).filterMap (fun nb =>
        if improves s.cost_so_far (c0 + 1) nb.1 then
          some ⟨nb.1, (c0 + 1) + manhattan_distance nb.1 goal⟩ else none) := by
  have hnd := get_neighbors_positions_nodup m current.position
  refine ⟨run_eq_of_pop s m goal current rest c0 hpop hg hc, ?_, ?_⟩
  · intro nb hnb
    exact foldl_relax_entry_spec goal (c0 + 1) current.position
      (m.get_neighbors current.position) { s with frontier := rest } hnd nb hnb
  · exact foldl_relax_frontier goal (c0 + 1) current.position
      (m.get_neighbors current.position) { s with frontier := rest } hnd

/-- Witness for C2 on the first tick of the `"CCT"` search. -/
theorem astar_expansion_spec_witness :
    AStar.run (AStar.new ⟨0, 0⟩) mapCCT ⟨2, 0⟩ = some (AStar.choose
      (AStar.expand { AStar.new ⟨0, 0⟩ with frontier := [] } mapCCT ⟨2, 0⟩
        ⟨0, 0⟩ (0 + 1)) mapCCT ⟨0, 0⟩) :=
  (astar_expansion_spec (AStar.new ⟨0, 0⟩) mapCCT ⟨2, 0⟩ ⟨⟨0, 0⟩, 0⟩ [] 0
    (by decide) (by decide) (by decide)).1

/-- C10: in the non-goal branch, after the expansion step, `AStar::run` pops
a second entry `next`; that entry stays removed from the frontier either way,
and the returned advice is `none` exactly when `next`'s position is not an
in-bounds coordinate 4-adjacent to `current`; when a direction is returned it
is the cardinal direction from `current`'s position to `next`'s position. -/
theorem astar_choice_spec (m : Map) (s : AStar) (goal : IVec2)
    (current : PositionNode) (rest : List PositionNode) (c0 : Int)
    (next : PositionNode) (rest₂ : List PositionNode)
    (hwf : m.WF)
    (hpop : popMin s.frontier = some (current, rest))
    (hg : current.position ≠ goal)
    (hc : lookupA s.cost_so_far current.position = some c0)
    (hpop2 : popMin (AStar.expand { s with frontier := rest } m goal
      current.position (c0 + 1)).frontier = some (next, rest₂)) :
    ∃ d, AStar.run s m goal = some (d,
        { AStar.expand { s with frontier := rest } m goal current.position (c0 + 1)
          with frontier := rest₂ }) ∧
      (d = none ↔ ¬(m.in_bounds next.position = true ∧
        manhattan_distance current.position next.position = 1)) ∧
      (∀ dir, d = some dir → next.position = current.position + dir.to_ivec2) := by
  have hrun := run_eq_of_pop s m goal current rest c0 hpop hg hc
  cases hf : (m.get_neighbors current.position).find?
      (fun nb => nb.1 == next.position) with
  | none =>
    refine ⟨none, ?_, ?_, ?_⟩
    · rw [hrun]
      simp only [AStar.choose, hpop2, hf]
    · exact iff_of_true rfl
        ((find_neighbor_eq m hwf current.position next.position).1.mp hf)
    · intro dir hdir
      cases hdir
  | some nb =>
    obtain ⟨hp1, hp2, hib, hman⟩ :=
      (find_neighbor_eq m hwf current.position next.position).2 nb hf
    refine ⟨some nb.2.1, ?_, ?_, ?_⟩
    · rw [hrun]
      simp only [AStar.choose, hpop2, hf]
    · exact iff_of_false (by simp) (fun hcon => hcon ⟨hib, hman⟩)
    · intro dir hdir
      have hd : nb.2.1 = dir := by
        simpa using hdir
      rw [← hd]
      exact hp2

/-- Witness for C10 on the first tick of the `"CCT"` search, where the
second pop yields (1,0), adjacent to the expanded node (0,0), and the
returned direction is Right. -/
theorem astar_choice_spec_witness :
    ∃ d, AStar.run (AStar.new ⟨0, 0⟩) mapCCT ⟨2, 0⟩ = some (d,
        { AStar.expand { AStar.new ⟨0, 0⟩ with frontier := [] } mapCCT ⟨2, 0⟩
          ⟨0, 0⟩ (0 + 1) with frontier := ([] : List PositionNode) }) ∧
      (d = none ↔ ¬(mapCCT.in_bounds ⟨1, 0⟩ = true ∧
        manhattan_distance ⟨0, 0⟩ ⟨1, 0⟩ = 1)) ∧
      (∀ dir, d = some dir → (⟨1, 0⟩ : IVec2) = ⟨0, 0⟩ + dir.to_ivec2) :=
  astar_choice_spec mapCCT (AStar.new ⟨0, 0⟩) ⟨2, 0⟩ ⟨⟨0, 0⟩, 0⟩ [] 0
    ⟨⟨1, 0⟩, 2⟩ [] (by decide) (by decide) (by decide) (by decide) (by decide)

theorem charToTile_ok_iff (c : Char) :
    (∃ t, charToTile c = .ok t) ↔ (c = 'C' ∨ c = 'W' ∨ c = 'T') := by
  by_cases hC : c = 'C'
  · subst hC
    exact ⟨fun _ => Or.inl rfl, fun _ => ⟨.CLEAN, rfl⟩⟩
  by_cases hW : c = 'W'
  · subst hW
    exact ⟨fun _ => Or.inr (Or.inl rfl), fun _ => ⟨.IMPASSABLE, rfl⟩⟩
  by_cases hT : c = 'T'
  · subst hT
    exact ⟨fun _ => Or.inr (Or.inr rfl), fun _ => ⟨.TARGET, rfl⟩⟩
  · constructor
    · rintro ⟨t, ht⟩
      simp [charToTile, hC, hW, hT] at ht
    · rintro (rfl | rfl | rfl)
      · exact absurd rfl hC
      · exact absurd rfl hW
      · exact absurd rfl hT

theorem charToTile_ne_dirty (c : Char) (t : Tile) (h : charToTile c = .ok t) :
    t ≠ Tile.DIRTY := by
  by_cases hC : c = 'C'
  · subst hC
    simp only [charToTile] at h
    cases h
    simp
  by_cases hW : c = 'W'
  · subst hW
    simp only [charToTile] at h
    cases h
    simp
  by_cases hT : c = 'T'
  · subst hT
    simp only [charToTile] at h
    cases h
    simp
  · simp [charToTile, hC, hW, hT] at h

theorem parseRow_ok_iff : ∀ l : List Char,
    (∃ r, parseRow l = .ok r) ↔ ∀ c ∈ l, c = 'C' ∨ c = 'W' ∨ c = 'T' := by
  intro l
  induction l with
  | nil => simp [parseRow]
  | cons c cs ih =>
    constructor
    · rintro ⟨r, hr⟩
      cases hct : charToTile c with
      | error e =>
        rw [show parseRow (c :: cs) = .error e by simp [parseRow, hct]] at hr
        exact Except.noConfusion hr
      | ok t =>
        cases hpr : parseRow cs with
        | error e =>
          rw [show parseRow (c :: cs) = .error e by simp [parseRow, hct, hpr]] at hr
          exact Except.noConfusion hr
        | ok ts =>
          intro c' hc'
          rcases List.mem_cons.mp hc' with rfl | hmem
          · exact (charToTile_ok_iff c').mp ⟨t, hct⟩
          · exact (ih.mp ⟨ts, hpr⟩) c' hmem
    · intro h
      obtain ⟨t, hct⟩ := (charToTile_ok_iff c).mpr (h c (List.mem_cons_self _ _))
      obtain ⟨ts, hts⟩ := ih.mpr (fun c' h' => h c' (List.mem_cons_of_mem _ h'))
      exact ⟨t :: ts, by simp [parseRow, hct, hts]⟩

theorem parseRow_no_dirty : ∀ (l : List Char) (r : List Tile),
    parseRow l = .ok r → ∀ t ∈ r, t ≠ Tile.DIRTY := by
  intro l
  induction l with
  | nil =>
    intro r hr t ht
    simp only [parseRow, Except.ok.injEq] at hr
    subst hr
    simp at ht
  | cons c cs ih =>
    intro r hr t ht
    cases hct : charToTile c with
    | error e =>
      rw [show parseRow (c :: cs) = .error e by simp [parseRow, hct]] at hr
      exact Except.noConfusion hr
    | ok t0 =>
      cases hpr : parseRow cs with
      | error e =>
        rw [show parseRow (c :: cs) = .error e by simp [parseRow, hct, hpr]] at hr
        exact Except.noConfusion hr
      | ok ts =>
        simp only [parseRow, hct, hpr, Except.ok.injEq] at hr
        subst hr
        rcases List.mem_cons.mp ht with rfl | hmem
        · exact charToTile_ne_dirty c t hct
        · exact ih ts hpr t hmem

theorem parseRows_ok_iff : ∀ ls : List (List Char),
    (∃ rs, parseRows ls = .ok rs) ↔
      ∀ l ∈ ls, ∀ c ∈ l, c = 'C' ∨ c = 'W' ∨ c = 'T' := by
  intro ls
  induction ls with
  | nil => simp [parseRows]
  | cons l rest ih =>
    constructor
    · rintro ⟨rs, hrs⟩
      cases hpr : parseRow l with
      | error e =>
        rw [show parseRows (l :: rest) = .error e by simp [parseRows, hpr]] at hrs
        exact Except.noConfusion hrs
      | ok row =>
        cases hprs : parseRows rest with
        | error e =>
          rw [show parseRows (l :: rest) = .error e by simp [parseRows, hpr, hprs]] at hrs
          exact Except.noConfusion hrs
        | ok rows =>
          intro l' hl'
          rcases List.mem_cons.mp hl' with rfl | hmem
          · exact (parseRow_ok_iff l').mp ⟨row, hpr⟩
          · exact (ih.mp ⟨rows, hprs⟩) l' hmem
    · intro h
      obtain ⟨row, hrow⟩ := (parseRow_ok_iff l).mpr (h l (List.mem_cons_self _ _))
      obtain ⟨rows, hrows⟩ := ih.mpr (fun l' h' => h l' (List.mem_cons_of_mem _ h'))
      exact ⟨row :: rows, by simp [parseRows, hrow, hrows]⟩

theorem parseRows_no_dirty : ∀ (ls : List (List Char)) (rs : List (List Tile)),
    parseRows ls = .ok rs → ∀ row ∈ rs, ∀ t ∈ row, t ≠ Tile.DIRTY := by
  intro ls
  induction ls with
  | nil =>
    intro rs hrs row hrow
    simp only [parseRows, Except.ok.injEq] at hrs
    subst hrs
    simp at hrow
  | cons l rest ih =>
    intro rs hrs row hrow t ht
    cases hpr : parseRow l with
    | error e =>
      rw [show parseRows (l :: rest) = .error e by simp [parseRows, hpr]] at hrs
      exact Except.noConfusion hrs
    | ok r0 =>
      cases hprs : parseRows rest with
      | error e =>
        rw [show parseRows (l :: rest) = .error e by simp [parseRows, hpr, hprs]] at hrs
        exact Except.noConfusion hrs
      | ok rows =>
        simp only [parseRows, hpr, hprs, Except.ok.injEq] at hrs
        subst hrs
        rcases List.mem_cons.mp hrow with rfl | hmem
        · exact parseRow_no_dirty l row hpr t ht
        · exact ih rows hprs row hmem t ht

/-- C7: loading a map from text succeeds exactly when, after trimming
whitespace and discarding empty lines, at least one line remains, all lines
have equal length, and every character is `C`, `W` or `T`; otherwise a
descriptive parse error is returned (and no grid at all). A successfully
loaded grid never contains a `DIRTY` tile. -/
theorem load_from_lines_spec (input : List (List Char)) :
    ((∃ g, load_from_lines input = .ok g) ↔
      ((input.map trimChars).filter (fun l => !l.isEmpty) ≠ [] ∧
       (∀ l ∈ (input.map trimChars).filter (fun l => !l.isEmpty),
         l.length =
           (((input.map trimChars).filter (fun l => !l.isEmpty)).headD []).length) ∧
       (∀ l ∈ (input.map trimChars).filter (fun l => !l.isEmpty), ∀ c ∈ l,
         c = 'C' ∨ c = 'W' ∨ c = 'T'))) ∧
    ∀ g, load_from_lines input = .ok g → ∀ row ∈ g.tiles, ∀ t ∈ row,
      t ≠ Tile.DIRTY := by
  cases hlines : (input.map trimChars).filter (fun l => !l.isEmpty) with
  | nil =>
    constructor
    · constructor
      · rintro ⟨g, hg⟩
        simp only [load_from_lines, hlines] at hg
        exact Except.noConfusion hg
      · rintro ⟨hne, _, _⟩
        exact absurd rfl hne
    · intro g hg
      simp only [load_from_lines, hlines] at hg
      exact Except.noConfusion hg
  | cons first rest =>
    by_cases hlen : rest.all (fun l => l.length = first.length)
    · cases hpr : parseRows (first :: rest) with
      | error e =>
        constructor
        · constructor
          · rintro ⟨g, hg⟩
            simp only [load_from_lines, hlines] at hg
            rw [if_pos hlen, hpr] at hg
            exact Except.noConfusion hg
          · rintro ⟨_, _, hchars⟩
            obtain ⟨rs, hrs⟩ := (parseRows_ok_iff (first :: rest)).mpr hchars
            rw [hpr] at hrs
            exact Except.noConfusion hrs
        · intro g hg
          simp only [load_from_lines, hlines] at hg
          rw [if_pos hlen, hpr] at hg
          exact Except.noConfusion hg
      | ok rows =>
        constructor
        · constructor
          · intro _
            refine ⟨by simp, ?_, (parseRows_ok_iff (first :: rest)).mp ⟨rows, hpr⟩⟩
            intro l hl
            rcases List.mem_cons.mp hl with rfl | hl'
            · rfl
            · have h' := List.all_eq_true.mp hlen l hl'
              simpa using h'
          · intro _
            refine ⟨⟨rows, first.length, (first :: rest).length⟩, ?_⟩
            simp only [load_from_lines, hlines]
            rw [if_pos hlen, hpr]
        · intro g hg
          simp only [load_from_lines, hlines] at hg
          rw [if_pos hlen, hpr] at hg
          have hge : g = ⟨rows, first.length, (first :: rest).length⟩ := by
            simp only [Except.ok.injEq] at hg
            exact hg.symm
          subst hge
          intro row hrow t ht
          exact parseRows_no_dirty (first :: rest) rows hpr row hrow t ht
    · constructor
      · constructor
        · rintro ⟨g, hg⟩
          simp only [load_from_lines, hlines] at hg
          rw [if_neg hlen] at hg
          exact Except.noConfusion hg
        · rintro ⟨_, hlens, _⟩
          exfalso
          apply hlen
          rw [List.all_eq_true]
          intro l hl
          have h' := hlens l (List.mem_cons_of_mem _ hl)
          simpa using h'
      · intro g hg
        simp only [load_from_lines, hlines] at hg
        rw [if_neg hlen] at hg
        exact Except.noConfusion hg

/-- Witness for C7 on the single-line input `"CWT"`. -/
theorem load_from_lines_spec_witness :
    (∃ g, load_from_lines [['C', 'W', 'T']] = .ok g) ∧
    ∀ g, load_from_lines [['C', 'W', 'T']] = .ok g → ∀ row ∈ g.tiles,
      ∀ t ∈ row, t ≠ Tile.DIRTY :=
  ⟨(load_from_lines_spec [['C', 'W', 'T']]).1.mpr (by decide),
   (load_from_lines_spec [['C', 'W', 'T']]).2⟩
